import Mathlib

/-!
Verification of the cryptocurrency news aggregator (src/main.rs).

Shallow embedding conventions:
* Rust `String` / `&str` values in the parsing pipeline are modelled as
  `List Char`; byte-level questions (UTF-8 slice safety) get a separate
  byte-level model (`List Nat`) further below.
* `chrono::DateTime::parse_from_rfc2822` and `Utc::now` are external
  collaborators; they are passed in as an abstract parser
  `parseDate : List Char → Option Int` and a clock reading `now : Int`.
* Network I/O (`reqwest`) is passed in as an abstract environment mapping
  a URL to a delivered response or a transport error.  For the claims that
  distinguish HTTP statuses the delivered response is modelled as a status
  code paired with a body: `send()` fails only on transport problems, and
  the code never calls `error_for_status` or otherwise consults the
  status, so a delivered non-2xx body is parsed like any other.
* Rust's `Vec::sort_by` is a stable sort; it is embedded as
  `List.mergeSort` (also a stable sort) with the same comparison.
-/

/-- Error type, from `enum AppError` (src/main.rs:23-30).  The payload of
`RequestError` is an external `reqwest::Error`; only its presence matters. -/
inductive AppError where
  | RequestError : AppError
  | ParsingError : List Char → AppError
deriving Repr, DecidableEq

/-- The article record, from `struct NewsArticle` (src/main.rs:33-41). -/
structure NewsArticle where
  title : List Char
  link : List Char
  description : List Char
  source : List Char
  pub_date : List Char
  timestamp : Int
deriving Repr, DecidableEq

/-- Model of Rust `str::to_lowercase` (character-wise lowercasing). -/
def toLowercase (s : List Char) : List Char := s.map Char.toLower

/-- Model of Rust `str::contains` on strings: substring (infix) test. -/
def containsSub (hay needle : List Char) : Bool := decide (needle <:+: hay)

/-- `NewsArticle::matches_search` (src/main.rs:45-55): an empty term matches
everything, otherwise case-insensitive substring match against title,
description and source. -/
def NewsArticle.matches_search (a : NewsArticle) (search_term : List Char) : Bool :=
  if search_term.isEmpty then true
  else
    let search_lower := toLowercase search_term
    containsSub (toLowercase a.title) search_lower ||
    containsSub (toLowercase a.description) search_lower ||
    containsSub (toLowercase a.source) search_lower

/-- First index at which `pat` occurs as a contiguous block of `l`:
model of Rust `str::find` with a string pattern (src/main.rs:75). -/
def findSub [DecidableEq α] (pat : List α) : List α → Option Nat
  | [] => if pat = [] then some 0 else none
  | a :: rest =>
    if pat <+: (a :: rest) then some 0
    else (findSub pat rest).map (· + 1)

/-- `extract_text` (src/main.rs:71-86): substring strictly between the first
`<tag>` and the first `</tag>`, or a parsing error. -/
def extract_text (xml : List Char) (tag : List Char) : Except AppError (List Char) :=
  let start_tag := '<' :: tag ++ ['>']
  let end_tag := '<' :: '/' :: tag ++ ['>']
  match findSub start_tag xml, findSub end_tag xml with
  | some start, some endPos =>
    let start_pos := start + start_tag.length
    if start_pos < endPos then
      Except.ok ((xml.drop start_pos).take (endPos - start_pos))
    else
      Except.error (AppError.ParsingError (("Invalid tag positions for ").toList ++ tag))
  | _, _ => Except.error (AppError.ParsingError (("Tag not found: ").toList ++ tag))

/-- Model of Rust `str::split` with a string pattern: parts of `l` between
consecutive non-overlapping leftmost occurrences of `sep` (src/main.rs:95).
The `fuel` argument only bounds the recursion depth; every recursive call
consumes at least one element of the list (the separator used here,
`"<item>"`, is non-empty), so `l.length` fuel is always sufficient. -/
def splitOnSubFuel [DecidableEq α] (sep : List α) : Nat → List α → List (List α)
  | 0, l => [l]
  | _ + 1, [] => [[]]
  | fuel + 1, a :: rest =>
    if sep ≠ [] ∧ sep <+: (a :: rest) then
      [] :: splitOnSubFuel sep fuel ((a :: rest).drop sep.length)
    else
      match splitOnSubFuel sep fuel rest with
      | [] => [[a]]
      | p :: ps => (a :: p) :: ps

/-- Model of Rust `str::split` for a non-empty string pattern. -/
def splitOnSub [DecidableEq α] (sep : List α) (l : List α) : List (List α) :=
  splitOnSubFuel sep l.length l

/-- The item-boundary marker the feed body is split on (src/main.rs:95). -/
def itemMarker : List Char := ("<item>").toList

def titleTag : List Char := ("title").toList
def linkTag : List Char := ("link").toList
def descriptionTag : List Char := ("description").toList
def pubDateTag : List Char := ("pubDate").toList

/-- The ellipsis marker appended to every description (src/main.rs:113). -/
def ellipsisMarker : List Char := ("...").toList

/-- Body of the per-item loop of `parse_rss` (src/main.rs:97-121): one
article when all four field extractions succeed, nothing otherwise.
`parseDate` abstracts `DateTime::parse_from_rfc2822` composed with
`.timestamp()`; `now` abstracts `Utc::now().timestamp()`. -/
def buildArticle (now : Int) (parseDate : List Char → Option Int)
    (source_name : List Char) (item : List Char) : Option NewsArticle :=
  match extract_text item titleTag, extract_text item linkTag,
      extract_text item descriptionTag, extract_text item pubDateTag with
  | Except.ok title, Except.ok link, Except.ok description, Except.ok pub_date =>
    let timestamp : Int :=
      match parseDate pub_date with
      | some t => t
      | none => now
    some { title := title, link := link,
           description := description.take 200 ++ ellipsisMarker,
           source := source_name, pub_date := pub_date, timestamp := timestamp }
  | _, _, _, _ => none

/-- One iteration of the `for item in items` loop (src/main.rs:97-121):
push the article if the fragment yields one, leave the vector unchanged
otherwise. -/
def pushStep (now : Int) (parseDate : List Char → Option Int)
    (source_name : List Char) (articles : List NewsArticle)
    (item : List Char) : List NewsArticle :=
  match buildArticle now parseDate source_name item with
  | some a => articles ++ [a]
  | none => articles

/-- Pure core of `parse_rss` (src/main.rs:92-123), applied to the fetched
response body: split on `"<item>"`, skip everything before the first
boundary, and push one article per fragment whose four fields extract. -/
def parse_rss_body (now : Int) (parseDate : List Char → Option Int)
    (source_name : List Char) (response : List Char) : List NewsArticle :=
  let items := (splitOnSub itemMarker response).drop 1
  items.foldl (pushStep now parseDate source_name) []

/-- `parse_rss` (src/main.rs:89-124) including the network step: the `?`
operators propagate a transport failure, otherwise the body is parsed. -/
def parse_rss (net : List Char → Except AppError (List Char)) (now : Int)
    (parseDate : List Char → Option Int) (source_name : List Char)
    (url : List Char) : Except AppError (List NewsArticle) :=
  match net url with
  | Except.error e => Except.error e
  | Except.ok response => Except.ok (parse_rss_body now parseDate source_name response)

/-- The comparison used at src/main.rs:138: `sort_by(|a, b|
b.timestamp.cmp(&a.timestamp))` sorts ascending in this comparator, i.e.
descending by timestamp; `a` may stay before `b` iff `b.timestamp ≤
a.timestamp`. -/
def tsDesc (a b : NewsArticle) : Bool := decide (b.timestamp ≤ a.timestamp)

/-- The sort of src/main.rs:138.  Rust `sort_by` is stable, and so is
`List.mergeSort`. -/
def aggregate (all_articles : List NewsArticle) : List NewsArticle :=
  all_articles.mergeSort tsDesc

/-- One iteration of the source loop of `fetch_all_news`
(src/main.rs:130-135): append the source's articles on success; on failure
the error is logged (I/O, no effect on the value) and nothing is added. -/
def appendStep (net : List Char → Except AppError (List Char)) (now : Int)
    (parseDate : List Char → Option Int) (all_articles : List NewsArticle)
    (s : List Char × List Char) : List NewsArticle :=
  match parse_rss net now parseDate s.1 s.2 with
  | Except.ok articles => all_articles ++ articles
  | Except.error _ => all_articles

/-- What a single source contributes to the concatenated list: its parsed
articles on success, nothing on failure. -/
def sourceContribution (net : List Char → Except AppError (List Char)) (now : Int)
    (parseDate : List Char → Option Int)
    (s : List Char × List Char) : List NewsArticle :=
  match parse_rss net now parseDate s.1 s.2 with
  | Except.ok articles => articles
  | Except.error _ => []

/-- The concatenation loop of `fetch_all_news` (src/main.rs:128-135): each
source's articles are appended in configured order. -/
def all_articles_of (net : List Char → Except AppError (List Char)) (now : Int)
    (parseDate : List Char → Option Int)
    (sources : List (List Char × List Char)) : List NewsArticle :=
  sources.foldl (appendStep net now parseDate) []

/-- `fetch_all_news` (src/main.rs:127-141) generalised over the source
list: concatenate per-source results, then sort by timestamp descending. -/
def fetch_all_news_over (net : List Char → Except AppError (List Char)) (now : Int)
    (parseDate : List Char → Option Int)
    (sources : List (List Char × List Char)) : List NewsArticle :=
  aggregate (all_articles_of net now parseDate sources)

/-- `NEWS_SOURCES` (src/main.rs:13-17). -/
def NEWS_SOURCES : List (List Char × List Char) :=
  [(("CoinDesk").toList, ("https://www.coindesk.com/arc/outboundfeeds/rss/").toList),
   (("CryptoSlate").toList, ("https://cryptoslate.com/feed/").toList),
   (("Cointelegraph").toList, ("https://cointelegraph.com/rss").toList)]

/-- `REFRESH_INTERVAL` (src/main.rs:20). -/
def REFRESH_INTERVAL : Nat := 300

/-- `fetch_all_news` (src/main.rs:127-141) over the configured sources. -/
def fetch_all_news (net : List Char → Except AppError (List Char)) (now : Int)
    (parseDate : List Char → Option Int) : List NewsArticle :=
  fetch_all_news_over net now parseDate NEWS_SOURCES

/-! ### The status-aware network model

`reqwest` delivers a `Response` carrying an HTTP status code; `.text()`
then returns the raw body regardless of that status.  The definitions
below re-embed `parse_rss` and the `fetch_all_news` loop over a network
environment that reports the status, so that behaviour on non-success
responses is expressible.  -/

/-- Rust `reqwest::StatusCode::is_success`: a 2xx status. -/
def isSuccessStatus (status : Nat) : Bool := 200 ≤ status && status < 300

/-- `parse_rss` (src/main.rs:89-124) over a network environment that also
reports the HTTP status code of each delivered response.  The code is
`client.get(url).send().await?.text().await?` with no `error_for_status`
call: the `?`s propagate only transport failures, and the status code of
a delivered response is never consulted — its body (`response.2`) is
parsed whether or not the status is a success. -/
def parse_rss_http (net : List Char → Except AppError (Nat × List Char))
    (now : Int) (parseDate : List Char → Option Int) (source_name : List Char)
    (url : List Char) : Except AppError (List NewsArticle) :=
  match net url with
  | Except.error e => Except.error e
  | Except.ok response =>
    Except.ok (parse_rss_body now parseDate source_name response.2)

/-- The source-loop iteration of `fetch_all_news` (src/main.rs:130-135)
over the status-aware network model. -/
def appendStepHttp (net : List Char → Except AppError (Nat × List Char))
    (now : Int) (parseDate : List Char → Option Int)
    (all_articles : List NewsArticle) (s : List Char × List Char) :
    List NewsArticle :=
  match parse_rss_http net now parseDate s.1 s.2 with
  | Except.ok articles => all_articles ++ articles
  | Except.error _ => all_articles

/-- What a single source contributes to the concatenated list under the
status-aware model: its parsed articles whenever a response was delivered
(whatever its status), nothing on a transport failure. -/
def sourceContributionHttp (net : List Char → Except AppError (Nat × List Char))
    (now : Int) (parseDate : List Char → Option Int)
    (s : List Char × List Char) : List NewsArticle :=
  match parse_rss_http net now parseDate s.1 s.2 with
  | Except.ok articles => articles
  | Except.error _ => []

/-- The concatenation loop of `fetch_all_news` (src/main.rs:128-135) over
the status-aware network model. -/
def all_articles_of_http (net : List Char → Except AppError (Nat × List Char))
    (now : Int) (parseDate : List Char → Option Int)
    (sources : List (List Char × List Char)) : List NewsArticle :=
  sources.foldl (appendStepHttp net now parseDate) []

/-- `fetch_all_news` (src/main.rs:127-141) over the status-aware network
model: concatenate per-source results in configured order, then sort. -/
def fetch_all_news_http (net : List Char → Except AppError (Nat × List Char))
    (now : Int) (parseDate : List Char → Option Int)
    (sources : List (List Char × List Char)) : List NewsArticle :=
  aggregate (all_articles_of_http net now parseDate sources)

/-! ### Specification-level occurrence predicates (for the Field Extractor) -/

/-- `pat` occurs as a contiguous block of `l` starting at index `i`. -/
def occursAt (pat l : List α) (i : Nat) : Prop := pat <+: l.drop i

/-- `i` is the index of the first occurrence of `pat` in `l`. -/
def firstOccurrenceAt (pat l : List α) (i : Nat) : Prop :=
  occursAt pat l i ∧ ∀ j, j < i → ¬ occursAt pat l j

/-! ### Cache model

The cache is `news_cache : RwLock<Vec<NewsArticle>>` (src/main.rs:66).  The
writer's critical section (src/main.rs:152-155) acquires the write guard,
performs the assignment `*cache = articles`, and releases; each reader
(src/main.rs:169, 200) acquires the read guard, clones the vector, and
releases.  The model makes the assignment itself *non-atomic*: while the
writer is mid-assignment the stored value may be arbitrary garbage (step
`tear`), so that the absence of torn reads is a consequence of the lock
discipline rather than an assumption.  The `RwLock` semantics are encoded
in the acquisition side conditions: the read guard is unavailable while the
writer holds the lock, and the write guard requires no readers. -/

structure CacheSys where
  readers : Nat
  writerHolds : Bool
  midAssign : Bool
  cache : List NewsArticle
deriving Repr, DecidableEq

/-- The cache starts out empty (src/main.rs:222, `RwLock::new(Vec::new())`). -/
def initCacheSys : CacheSys :=
  { readers := 0, writerHolds := false, midAssign := false, cache := [] }

/-- Observable events: a completed replacement (the writer finished the
assignment of a full vector `v`) and a reader snapshot (a clone of the
current contents taken under the read guard). -/
inductive CacheLabel where
  | tau : CacheLabel
  | writeDone : List NewsArticle → CacheLabel
  | observe : List NewsArticle → CacheLabel
deriving Repr, DecidableEq

/-- One interleaved step of the writer task or of some reader task. -/
inductive CacheStep : CacheSys → CacheLabel → CacheSys → Prop where
  | acqRead (s : CacheSys) : s.writerHolds = false →
      CacheStep s CacheLabel.tau { s with readers := s.readers + 1 }
  | clone (s : CacheSys) : 0 < s.readers →
      CacheStep s (CacheLabel.observe s.cache) s
  | relRead (s : CacheSys) : 0 < s.readers →
      CacheStep s CacheLabel.tau { s with readers := s.readers - 1 }
  | acqWrite (s : CacheSys) : s.writerHolds = false → s.readers = 0 →
      CacheStep s CacheLabel.tau { s with writerHolds := true }
  | beginAssign (s : CacheSys) : s.writerHolds = true →
      CacheStep s CacheLabel.tau { s with midAssign := true }
  | tear (s : CacheSys) (junk : List NewsArticle) :
      s.writerHolds = true → s.midAssign = true →
      CacheStep s CacheLabel.tau { s with cache := junk }
  | finishAssign (s : CacheSys) (v : List NewsArticle) :
      s.writerHolds = true → s.midAssign = true →
      CacheStep s (CacheLabel.writeDone v) { s with midAssign := false, cache := v }
  | relWrite (s : CacheSys) : s.writerHolds = true → s.midAssign = false →
      CacheStep s CacheLabel.tau { s with writerHolds := false }

/-- Finite interleavings of cache steps, recording the emitted labels. -/
inductive CacheTrace : CacheSys → List CacheLabel → CacheSys → Prop where
  | nil (s : CacheSys) : CacheTrace s [] s
  | cons {s s₁ s₂ : CacheSys} {lab : CacheLabel} {labs : List CacheLabel} :
      CacheStep s lab s₁ → CacheTrace s₁ labs s₂ → CacheTrace s (lab :: labs) s₂

/-- The sequence of fully completed replacements recorded in a label list. -/
def writesOf (labs : List CacheLabel) : List (List NewsArticle) :=
  labs.filterMap fun lab =>
    match lab with
    | CacheLabel.writeDone v => some v
    | _ => none

/-! ### Byte-level model of `extract_text` slice safety

Rust's `str::find` returns *byte* indices and `&xml[start_pos..end]`
panics if an index is out of bounds or not on a character boundary.  To
state that claim we re-embed `extract_text` over byte lists.  `Utf8Valid`
captures the byte-class structure of UTF-8 (ASCII, and 2-, 3-, 4-byte
sequences headed by a lead byte followed by continuation bytes); every
Rust `String` satisfies it.  `sliceBytes` returns `none` exactly when the
corresponding Rust slice expression would panic. -/

/-- A UTF-8 continuation byte (`0b10xxxxxx`). -/
def isContByte (b : Nat) : Prop := 0x80 ≤ b ∧ b < 0xC0

instance (b : Nat) : Decidable (isContByte b) := by
  unfold isContByte; infer_instance

/-- Byte-class validity of a UTF-8 byte sequence. -/
inductive Utf8Valid : List Nat → Prop where
  | nil : Utf8Valid []
  | ascii (b : Nat) (rest : List Nat) : b < 0x80 → Utf8Valid rest →
      Utf8Valid (b :: rest)
  | two (b c1 : Nat) (rest : List Nat) : 0xC0 ≤ b → b < 0xE0 →
      isContByte c1 → Utf8Valid rest → Utf8Valid (b :: c1 :: rest)
  | three (b c1 c2 : Nat) (rest : List Nat) : 0xE0 ≤ b → b < 0xF0 →
      isContByte c1 → isContByte c2 → Utf8Valid rest →
      Utf8Valid (b :: c1 :: c2 :: rest)
  | four (b c1 c2 c3 : Nat) (rest : List Nat) : 0xF0 ≤ b → b < 0xF8 →
      isContByte c1 → isContByte c2 → isContByte c3 → Utf8Valid rest →
      Utf8Valid (b :: c1 :: c2 :: c3 :: rest)

/-- Rust `str::is_char_boundary` on the byte list model. -/
def charBoundary (l : List Nat) (p : Nat) : Bool :=
  if p = 0 then true
  else
    match l[p]? with
    | none => decide (p = l.length)
    | some b => ! decide (isContByte b)

/-- Rust string slicing `&s[i..j]`: `none` models the panic on an
out-of-range or non-boundary index. -/
def sliceBytes (l : List Nat) (i j : Nat) : Option (List Nat) :=
  if i ≤ j ∧ charBoundary l i ∧ charBoundary l j then
    some ((l.drop i).take (j - i))
  else none

/-- Byte-level `extract_text` (src/main.rs:71-86): identical control flow,
with the slice `&xml[start_pos..end]` modelled by `sliceBytes`; an overall
`none` means the Rust code would panic.  `0x3C`, `0x2F`, `0x3E` are the
bytes of `<`, `/`, `>`. -/
def extract_text_bytes (xml tag : List Nat) : Option (Except Unit (List Nat)) :=
  let start_tag := 0x3C :: tag ++ [0x3E]
  let end_tag := 0x3C :: 0x2F :: tag ++ [0x3E]
  match findSub start_tag xml, findSub end_tag xml with
  | some start, some endPos =>
    let start_pos := start + start_tag.length
    if start_pos < endPos then
      (sliceBytes xml start_pos endPos).map Except.ok
    else some (Except.error ())
  | _, _ => some (Except.error ())

/-! ### Concrete sample values used by the witness theorems -/

def sampleArticleA : NewsArticle :=
  { title := ("alpha").toList, link := ("la").toList, description := ("da").toList,
    source := ("S1").toList, pub_date := ("pa").toList, timestamp := 5 }

def sampleArticleB : NewsArticle :=
  { title := ("beta").toList, link := ("lb").toList, description := ("db").toList,
    source := ("S2").toList, pub_date := ("pb").toList, timestamp := 5 }

/-- A well-formed item fragment containing all four required fields. -/
def sampleFragment : List Char :=
  ("<title>t</title><link>l</link><description>d</description><pubDate>p</pubDate>").toList

/-- A feed body containing one item boundary followed by `sampleFragment`. -/
def sampleBody : List Char := ("<rss>").toList ++ itemMarker ++ sampleFragment

/-- The article that parsing `sampleBody` yields under `now = 42` and a
date parser that always fails. -/
def sampleParsedArticle : NewsArticle :=
  { title := ("t").toList, link := ("l").toList,
    description := ("d").toList ++ ellipsisMarker, source := ("S").toList,
    pub_date := ("p").toList, timestamp := 42 }

/-! ### C1: the aggregate is a stable sort, non-increasing by timestamp -/

lemma tsDesc_trans : ∀ a b c : NewsArticle,
    tsDesc a b = true → tsDesc b c = true → tsDesc a c = true := by
  intro a b c hab hbc
  simp only [tsDesc, decide_eq_true_eq] at *
  omega

lemma tsDesc_total : ∀ a b : NewsArticle, (tsDesc a b || tsDesc b a) = true := by
  intro a b
  simp only [tsDesc, Bool.or_eq_true, decide_eq_true_eq]
  omega

/-- C1: for every input sequence of articles, the aggregate (the list
`fetch_all_news` produces after the sort at src/main.rs:138) is sorted
non-increasing by `timestamp`, and the sort is stable: articles with equal
timestamps keep their relative order from the concatenated input. -/
theorem aggregate_sorted_and_stable :
    (∀ l : List NewsArticle,
      (aggregate l).Pairwise (fun a b => b.timestamp ≤ a.timestamp) ∧
      (∀ a b : NewsArticle, a.timestamp = b.timestamp →
        List.Sublist [a, b] l → List.Sublist [a, b] (aggregate l))) ∧
    (∀ net now parseDate sources,
      fetch_all_news_over net now parseDate sources
        = aggregate (all_articles_of net now parseDate sources)) := by
  refine ⟨fun l => ⟨?_, ?_⟩, fun _ _ _ _ => rfl⟩
  · exact (List.sorted_mergeSort tsDesc_trans tsDesc_total l).imp
      (fun h => of_decide_eq_true h)
  · intro a b hts hsub
    exact List.pair_sublist_mergeSort tsDesc_trans tsDesc_total
      (by simp [tsDesc, hts]) hsub

/-- Witness for C1 at a concrete input: two distinct articles with equal
timestamps stay in input order through the aggregate. -/
theorem aggregate_sorted_and_stable_witness :
    sampleArticleA.timestamp = sampleArticleB.timestamp ∧
    List.Sublist [sampleArticleA, sampleArticleB]
      (aggregate [sampleArticleA, sampleArticleB]) :=
  ⟨rfl, (aggregate_sorted_and_stable.1 [sampleArticleA, sampleArticleB]).2
    sampleArticleA sampleArticleB rfl (List.Sublist.refl _)⟩

/-! ### C2: the search filter -/

/-- C2: the empty search term matches every article; a non-empty term
matches exactly when its lowercased form is a substring of the lowercased
title, description, or source (src/main.rs:45-55). -/
theorem matches_search_spec (a : NewsArticle) :
    a.matches_search [] = true ∧
    ∀ term : List Char, term ≠ [] →
      (a.matches_search term = true ↔
        (toLowercase term <:+: toLowercase a.title ∨
         toLowercase term <:+: toLowercase a.description ∨
         toLowercase term <:+: toLowercase a.source)) := by
  constructor
  · simp [NewsArticle.matches_search]
  · intro term hterm
    simp [NewsArticle.matches_search, containsSub, hterm, or_assoc]

/-- Witness for C2 at a concrete article and non-empty term. -/
theorem matches_search_spec_witness :
    sampleArticleA.matches_search (("ALPH").toList) = true ↔
      (toLowercase (("ALPH").toList) <:+: toLowercase sampleArticleA.title ∨
       toLowercase (("ALPH").toList) <:+: toLowercase sampleArticleA.description ∨
       toLowercase (("ALPH").toList) <:+: toLowercase sampleArticleA.source) :=
  (matches_search_spec sampleArticleA).2 (("ALPH").toList) (by decide)

/-! ### C3, C4, C6: the item parser -/

lemma foldl_pushStep_eq_filterMap (now : Int) (parseDate : List Char → Option Int)
    (source_name : List Char) :
    ∀ (items : List (List Char)) (acc : List NewsArticle),
      items.foldl (pushStep now parseDate source_name) acc
        = acc ++ items.filterMap (buildArticle now parseDate source_name) := by
  intro items
  induction items with
  | nil => intro acc; simp
  | cons x xs ih =>
    intro acc
    cases hg : buildArticle now parseDate source_name x <;>
      simp [pushStep, hg, ih, List.filterMap_cons]

lemma parse_rss_body_eq_filterMap (now : Int) (parseDate : List Char → Option Int)
    (source_name response : List Char) :
    parse_rss_body now parseDate source_name response
      = ((splitOnSub itemMarker response).drop 1).filterMap
          (buildArticle now parseDate source_name) := by
  simpa [parse_rss_body] using
    foldl_pushStep_eq_filterMap now parseDate source_name
      ((splitOnSub itemMarker response).drop 1) []

lemma isOk_exists {ε : Type u} {α : Type v} {e : Except ε α}
    (h : e.isOk = true) : ∃ v, e = Except.ok v := by
  cases e <;> simp_all [Except.isOk, Except.toBool]

lemma buildArticle_isSome_iff (now : Int) (parseDate : List Char → Option Int)
    (source_name item : List Char) :
    (buildArticle now parseDate source_name item).isSome = true ↔
      ((extract_text item titleTag).isOk = true ∧
       (extract_text item linkTag).isOk = true ∧
       (extract_text item descriptionTag).isOk = true ∧
       (extract_text item pubDateTag).isOk = true) := by
  unfold buildArticle
  cases h1 : extract_text item titleTag <;>
    cases h2 : extract_text item linkTag <;>
      cases h3 : extract_text item descriptionTag <;>
        cases h4 : extract_text item pubDateTag <;>
          simp [Except.isOk, Except.toBool]

lemma buildArticle_eq_some_iff (now : Int) (parseDate : List Char → Option Int)
    (source_name item : List Char) (a : NewsArticle) :
    buildArticle now parseDate source_name item = some a ↔
      ∃ t l d p : List Char,
        extract_text item titleTag = Except.ok t ∧
        extract_text item linkTag = Except.ok l ∧
        extract_text item descriptionTag = Except.ok d ∧
        extract_text item pubDateTag = Except.ok p ∧
        a = { title := t, link := l,
              description := d.take 200 ++ ellipsisMarker,
              source := source_name, pub_date := p,
              timestamp := match parseDate p with | some ts => ts | none => now } := by
  unfold buildArticle
  cases h1 : extract_text item titleTag <;>
    cases h2 : extract_text item linkTag <;>
      cases h3 : extract_text item descriptionTag <;>
        cases h4 : extract_text item pubDateTag <;>
          simp [eq_comm]

/-- C3: the item parser splits the body on the literal `"<item>"` marker,
discards everything before the first boundary, and turns each fragment
into exactly one article when all four field extractions succeed and into
nothing when any of them fails — never a partial article
(src/main.rs:95-121). -/
theorem parse_rss_fragment_spec (now : Int) (parseDate : List Char → Option Int)
    (source_name response : List Char) :
    parse_rss_body now parseDate source_name response
      = ((splitOnSub itemMarker response).drop 1).filterMap
          (buildArticle now parseDate source_name) ∧
    ∀ item : List Char,
      ((buildArticle now parseDate source_name item).isSome = true ↔
        ((extract_text item titleTag).isOk = true ∧
         (extract_text item linkTag).isOk = true ∧
         (extract_text item descriptionTag).isOk = true ∧
         (extract_text item pubDateTag).isOk = true)) :=
  ⟨parse_rss_body_eq_filterMap now parseDate source_name response,
   fun item => buildArticle_isSome_iff now parseDate source_name item⟩

/-- C4: every article the item parser emits has a description consisting
of at most the first 200 characters of the extracted text with the
ellipsis marker appended unconditionally (src/main.rs:113). -/
theorem description_truncation_spec (now : Int) (parseDate : List Char → Option Int)
    (source_name response : List Char) (a : NewsArticle)
    (h : a ∈ parse_rss_body now parseDate source_name response) :
    ∃ d : List Char, a.description = d ++ ellipsisMarker ∧ d.length ≤ 200 := by
  rw [parse_rss_body_eq_filterMap] at h
  obtain ⟨item, _, hb⟩ := List.mem_filterMap.mp h
  obtain ⟨t, l, d, p, _, _, _, _, ha⟩ :=
    (buildArticle_eq_some_iff now parseDate source_name item a).mp hb
  refine ⟨d.take 200, by simp [ha], ?_⟩
  simp [List.length_take]

/-- Witness for C4: the article parsed out of `sampleBody` indeed carries a
truncated, ellipsis-terminated description. -/
theorem description_truncation_witness :
    sampleParsedArticle ∈ parse_rss_body 42 (fun _ => none) (("S").toList) sampleBody ∧
    ∃ d : List Char, sampleParsedArticle.description = d ++ ellipsisMarker ∧
      d.length ≤ 200 :=
  ⟨by decide,
   description_truncation_spec 42 (fun _ => none) (("S").toList) sampleBody
     sampleParsedArticle (by decide)⟩

/-- C6: whenever all four fields of a fragment extract, an article is
produced even if the date fails to parse; its `pub_date` always stores the
raw extracted string, and its `timestamp` is the parsed date on success
and the current wall-clock reading `now` on failure (src/main.rs:104-116). -/
theorem timestamp_fallback_spec (now : Int) (parseDate : List Char → Option Int)
    (source_name item p : List Char)
    (ht : (extract_text item titleTag).isOk = true)
    (hl : (extract_text item linkTag).isOk = true)
    (hd : (extract_text item descriptionTag).isOk = true)
    (hp : extract_text item pubDateTag = Except.ok p) :
    ∃ a : NewsArticle, buildArticle now parseDate source_name item = some a ∧
      a.pub_date = p ∧
      (∀ ts : Int, parseDate p = some ts → a.timestamp = ts) ∧
      (parseDate p = none → a.timestamp = now) := by
  obtain ⟨t, h1⟩ := isOk_exists ht
  obtain ⟨l, h2⟩ := isOk_exists hl
  obtain ⟨d, h3⟩ := isOk_exists hd
  refine ⟨_, (buildArticle_eq_some_iff now parseDate source_name item _).mpr
    ⟨t, l, d, p, h1, h2, h3, hp, rfl⟩, rfl, ?_, ?_⟩
  · intro ts hts; simp [hts]
  · intro hnone; simp [hnone]

/-- Witness for C6 at a concrete fragment, with a date parser that always
fails: the timestamp falls back to the clock reading 42. -/
theorem timestamp_fallback_witness :
    ∃ a : NewsArticle,
      buildArticle 42 (fun _ => none) (("S").toList) sampleFragment = some a ∧
      a.pub_date = ("p").toList ∧
      (∀ ts : Int, (none : Option Int) = some ts → a.timestamp = ts) ∧
      ((none : Option Int) = none → a.timestamp = 42) :=
  timestamp_fallback_spec 42 (fun _ => none) (("S").toList) sampleFragment
    (("p").toList) (by decide) (by decide) (by decide) (by rfl)

/-! ### C7: per-source failure isolation in `fetch_all_news`

The loop at src/main.rs:130-135 isolates the failures `parse_rss` can
actually report: the `?`s at src/main.rs:90 propagate transport failures
only.  No HTTP status check (`error_for_status` or similar) exists in the
code, so a delivered non-success response is parsed like a success; the
counterexample below exhibits this, and the amended theorem states the
isolation that does hold. -/

lemma foldl_appendStep_eq_flatMap (net : List Char → Except AppError (List Char))
    (now : Int) (parseDate : List Char → Option Int) :
    ∀ (sources : List (List Char × List Char)) (acc : List NewsArticle),
      sources.foldl (appendStep net now parseDate) acc
        = acc ++ sources.flatMap (sourceContribution net now parseDate) := by
  intro sources
  induction sources with
  | nil => intro acc; simp
  | cons x xs ih =>
    intro acc
    cases hf : parse_rss net now parseDate x.1 x.2 <;>
      simp [appendStep, sourceContribution, hf, ih]

lemma all_articles_of_eq_flatMap (net : List Char → Except AppError (List Char))
    (now : Int) (parseDate : List Char → Option Int)
    (sources : List (List Char × List Char)) :
    all_articles_of net now parseDate sources
      = sources.flatMap (sourceContribution net now parseDate) := by
  simpa [all_articles_of] using foldl_appendStep_eq_flatMap net now parseDate sources []

lemma foldl_appendStepHttp_eq_flatMap
    (net : List Char → Except AppError (Nat × List Char))
    (now : Int) (parseDate : List Char → Option Int) :
    ∀ (sources : List (List Char × List Char)) (acc : List NewsArticle),
      sources.foldl (appendStepHttp net now parseDate) acc
        = acc ++ sources.flatMap (sourceContributionHttp net now parseDate) := by
  intro sources
  induction sources with
  | nil => intro acc; simp
  | cons x xs ih =>
    intro acc
    cases hf : parse_rss_http net now parseDate x.1 x.2 <;>
      simp [appendStepHttp, sourceContributionHttp, hf, ih]

lemma all_articles_of_http_eq_flatMap
    (net : List Char → Except AppError (Nat × List Char))
    (now : Int) (parseDate : List Char → Option Int)
    (sources : List (List Char × List Char)) :
    all_articles_of_http net now parseDate sources
      = sources.flatMap (sourceContributionHttp net now parseDate) := by
  simpa [all_articles_of_http] using
    foldl_appendStepHttp_eq_flatMap net now parseDate sources []

/-- C7 counterexample: a non-success (404) response is not an error for
this code — `send()` succeeds, no `error_for_status` is called, and the
delivered body is parsed like any success.  With a 404 response whose body
contains one well-formed item, the source contributes one article, not
zero, and that article reaches the refresh result. -/
theorem nonsuccess_response_not_isolated :
    isSuccessStatus 404 = false ∧
    sourceContributionHttp (fun _ => Except.ok (404, sampleBody)) 42 (fun _ => none)
      ((("S").toList), (("u").toList)) = [sampleParsedArticle] ∧
    fetch_all_news_http (fun _ => Except.ok (404, sampleBody)) 42 (fun _ => none)
      [((("S").toList), (("u").toList))] = [sampleParsedArticle] ∧
    ([sampleParsedArticle] : List NewsArticle) ≠ ([] : List NewsArticle) := by
  refine ⟨rfl, by decide, ?_, by decide⟩
  have h1 : all_articles_of_http (fun _ => Except.ok (404, sampleBody)) 42
      (fun _ => none) [((("S").toList), (("u").toList))] = [sampleParsedArticle] := by
    decide
  unfold fetch_all_news_http
  rw [h1]
  simp [aggregate]

/-- C7 (amended): a transport failure from any one source causes that
source to contribute zero articles while all other sources are fetched
and contribute normally — transport failure is fully isolated per source,
never aborts the cycle, and the per-source results are concatenated in
configured-source order before the final sort (src/main.rs:127-141).
A non-success HTTP response, however, is not detected: the status code of
a delivered response is never consulted, so its body is handed to the
item parser exactly like a success and the source contributes whatever
articles parse from that body. -/
theorem fetch_all_news_transport_isolation
    (net : List Char → Except AppError (Nat × List Char))
    (now : Int) (parseDate : List Char → Option Int)
    (sources : List (List Char × List Char)) :
    fetch_all_news_http net now parseDate sources
      = aggregate (sources.flatMap (sourceContributionHttp net now parseDate)) ∧
    (∀ s : List Char × List Char, ∀ e : AppError,
      net s.2 = Except.error e →
      sourceContributionHttp net now parseDate s = []) ∧
    (∀ s : List Char × List Char, ∀ status : Nat, ∀ body : List Char,
      net s.2 = Except.ok (status, body) →
      sourceContributionHttp net now parseDate s
        = parse_rss_body now parseDate s.1 body) ∧
    (∀ (pre suf : List (List Char × List Char)) (s : List Char × List Char)
      (e : AppError),
      sources = pre ++ s :: suf →
      net s.2 = Except.error e →
      fetch_all_news_http net now parseDate sources
        = fetch_all_news_http net now parseDate (pre ++ suf)) := by
  refine ⟨?_, ?_, ?_, ?_⟩
  · simp [fetch_all_news_http, all_articles_of_http_eq_flatMap]
  · intro s e he
    simp [sourceContributionHttp, parse_rss_http, he]
  · intro s status body hs
    simp [sourceContributionHttp, parse_rss_http, hs]
  · intro pre suf s e hsrc he
    simp [fetch_all_news_http, all_articles_of_http_eq_flatMap, hsrc,
      sourceContributionHttp, parse_rss_http, he]

/-- Witness for the amended C7: a delivered 500 response is treated like
any delivered response — the source's contribution is the parse of its
body, with the status ignored. -/
theorem fetch_all_news_transport_isolation_witness :
    sourceContributionHttp (fun _ => Except.ok (500, sampleBody)) 42 (fun _ => none)
      ((("S").toList), (("u").toList))
      = parse_rss_body 42 (fun _ => none) (("S").toList) sampleBody :=
  (fetch_all_news_transport_isolation (fun _ => Except.ok (500, sampleBody)) 42
    (fun _ => none) [((("S").toList), (("u").toList))]).2.2.1
    ((("S").toList), (("u").toList)) 500 sampleBody rfl

/-! ### C8, C9: the cache -/

lemma writesOf_cons_tau (labs : List CacheLabel) :
    writesOf (CacheLabel.tau :: labs) = writesOf labs := rfl

lemma writesOf_cons_observe (u : List NewsArticle) (labs : List CacheLabel) :
    writesOf (CacheLabel.observe u :: labs) = writesOf labs := rfl

lemma writesOf_cons_writeDone (v : List NewsArticle) (labs : List CacheLabel) :
    writesOf (CacheLabel.writeDone v :: labs) = v :: writesOf labs := rfl

lemma writesOf_append (l₁ l₂ : List CacheLabel) :
    writesOf (l₁ ++ l₂) = writesOf l₁ ++ writesOf l₂ :=
  List.filterMap_append l₁ l₂ _

lemma writesOf_eq_nil_of_no_writeDone (labs : List CacheLabel)
    (h : ∀ w, CacheLabel.writeDone w ∉ labs) : writesOf labs = [] := by
  induction labs with
  | nil => rfl
  | cons lab rest ih =>
    cases lab with
    | writeDone w => exact absurd (List.mem_cons_self _ _) (h w)
    | tau =>
      rw [writesOf_cons_tau]
      exact ih (fun w hw => h w (List.mem_cons_of_mem _ hw))
    | observe u =>
      rw [writesOf_cons_observe]
      exact ih (fun w hw => h w (List.mem_cons_of_mem _ hw))

/-- Soundness of snapshots along any interleaving: under the lock-discipline
invariants (a mid-assignment writer holds the write guard; a held write
guard excludes all readers; outside an assignment the cache holds the last
fully written value), every observed value equals the most recent completed
replacement, or the initial value if none completed yet — in particular it
is never a torn intermediate value. -/
lemma cache_trace_observe (labs : List CacheLabel) :
    ∀ (s s₂ : CacheSys) (w0 : List NewsArticle),
      CacheTrace s labs s₂ →
      (s.midAssign = true → s.writerHolds = true) →
      (s.writerHolds = true → s.readers = 0) →
      (s.midAssign = false → s.cache = w0) →
      ∀ (pre : List CacheLabel) (v : List NewsArticle) (suf : List CacheLabel),
        labs = pre ++ CacheLabel.observe v :: suf →
        v = (writesOf pre).getLastD w0 := by
  induction labs with
  | nil =>
    intro s s₂ w0 htr h1 h2 h3 pre v suf heq
    exact absurd heq (by cases pre <;> simp)
  | cons lab rest ih =>
    intro s s₂ w0 htr h1 h2 h3 pre v suf heq
    cases htr with
    | cons hstep htr' =>
    cases pre with
    | nil =>
      simp only [List.nil_append] at heq
      injection heq with hlab hrest
      subst hlab
      cases hstep with
      | clone hr =>
        have hw : s.writerHolds = false := by
          cases hwh : s.writerHolds with
          | false => rfl
          | true => exact absurd (h2 hwh) (by omega)
        have hm : s.midAssign = false := by
          cases hmi : s.midAssign with
          | false => rfl
          | true => simp [h1 hmi] at hw
        simpa [writesOf, List.getLastD] using h3 hm
    | cons p pre' =>
      rw [List.cons_append] at heq
      injection heq with hlab hrest
      subst hlab
      cases hstep with
      | acqRead hw =>
        have hrec := ih _ s₂ w0 htr' h1 (fun h => absurd h (by simp [hw])) h3
          pre' v suf hrest
        simpa [writesOf_cons_tau] using hrec
      | clone hr =>
        have hrec := ih _ s₂ w0 htr' h1 h2 h3 pre' v suf hrest
        simpa [writesOf_cons_observe] using hrec
      | relRead hr =>
        have hrec := ih _ s₂ w0 htr' h1 (fun h => by have := h2 h; omega) h3
          pre' v suf hrest
        simpa [writesOf_cons_tau] using hrec
      | acqWrite hw hr0 =>
        have hrec := ih _ s₂ w0 htr' (fun _ => rfl) (fun _ => hr0) h3
          pre' v suf hrest
        simpa [writesOf_cons_tau] using hrec
      | beginAssign hwh =>
        have hrec := ih _ s₂ w0 htr' (fun _ => hwh) h2
          (fun h => absurd h (by simp)) pre' v suf hrest
        simpa [writesOf_cons_tau] using hrec
      | tear junk hwh hmi =>
        have hrec := ih _ s₂ w0 htr' (fun _ => hwh) h2
          (fun h => absurd (hmi.symm.trans h) (by simp)) pre' v suf hrest
        simpa [writesOf_cons_tau] using hrec
      | finishAssign vnew hwh hmi =>
        have hrec := ih _ s₂ vnew htr' (fun h => absurd h (by simp)) h2
          (fun _ => rfl) pre' v suf hrest
        rw [writesOf_cons_writeDone, List.getLastD_cons]
        exact hrec
      | relWrite hwh hmi =>
        have hrec := ih _ s₂ w0 htr' (fun h => absurd h (by simp [hmi]))
          (fun h => absurd h (by simp)) h3 pre' v suf hrest
        simpa [writesOf_cons_tau] using hrec

/-- C9: replace is atomic with respect to snapshot.  In every interleaving
of the single writer with any number of readers starting from the empty
cache, each observed snapshot equals the most recent fully completed
replacement (the initial empty sequence if none) — never a mixture, even
though the model lets the mid-assignment contents be arbitrary garbage. -/
theorem cache_snapshot_atomic (labs : List CacheLabel) (s₂ : CacheSys)
    (htr : CacheTrace initCacheSys labs s₂)
    (pre : List CacheLabel) (v : List NewsArticle) (suf : List CacheLabel)
    (heq : labs = pre ++ CacheLabel.observe v :: suf) :
    v = (writesOf pre).getLastD [] :=
  cache_trace_observe labs initCacheSys s₂ [] htr
    (fun h => by simp [initCacheSys] at h) (fun _ => rfl)
    (fun _ => rfl) pre v suf heq

/-- Witness for C9: a reader that takes a snapshot of the untouched initial
cache observes the empty sequence. -/
theorem cache_snapshot_atomic_witness :
    ([] : List NewsArticle) = (writesOf [CacheLabel.tau]).getLastD [] :=
  cache_snapshot_atomic [CacheLabel.tau, CacheLabel.observe []] _
    (CacheTrace.cons (CacheStep.acqRead initCacheSys rfl)
      (CacheTrace.cons (CacheStep.clone _ (by decide)) (CacheTrace.nil _)))
    [CacheLabel.tau] [] [] rfl

/-- C8: a completed replace followed by a snapshot with no intervening
replace returns exactly the replaced sequence — same articles, same order,
no loss, no duplication. -/
theorem cache_replace_then_snapshot (labs : List CacheLabel) (s₂ : CacheSys)
    (htr : CacheTrace initCacheSys labs s₂)
    (pre mid suf : List CacheLabel) (v u : List NewsArticle)
    (heq : labs = pre ++ CacheLabel.writeDone v :: mid ++ CacheLabel.observe u :: suf)
    (hmid : ∀ w, CacheLabel.writeDone w ∉ mid) :
    u = v := by
  have h := cache_trace_observe labs initCacheSys s₂ [] htr
    (fun h => by simp [initCacheSys] at h) (fun _ => rfl) (fun _ => rfl)
    (pre ++ CacheLabel.writeDone v :: mid) u suf
    (by rw [heq]; try simp)
  rw [writesOf_append, writesOf_cons_writeDone,
    writesOf_eq_nil_of_no_writeDone mid hmid] at h
  simpa [List.getLastD_concat] using h

/-- Witness for C8: one full write cycle (acquire, assign, release)
followed by one full read cycle observes exactly the written sequence. -/
theorem cache_replace_then_snapshot_witness :
    ([sampleArticleA] : List NewsArticle) = [sampleArticleA] :=
  cache_replace_then_snapshot
    [CacheLabel.tau, CacheLabel.tau, CacheLabel.writeDone [sampleArticleA],
     CacheLabel.tau, CacheLabel.tau, CacheLabel.observe [sampleArticleA]] _
    (CacheTrace.cons (CacheStep.acqWrite initCacheSys rfl rfl)
      (CacheTrace.cons (CacheStep.beginAssign _ rfl)
        (CacheTrace.cons (CacheStep.finishAssign _ [sampleArticleA] rfl rfl)
          (CacheTrace.cons (CacheStep.relWrite _ rfl rfl)
            (CacheTrace.cons (CacheStep.acqRead _ rfl)
              (CacheTrace.cons (CacheStep.clone _ (by decide))
                (CacheTrace.nil _)))))))
    [CacheLabel.tau, CacheLabel.tau] [CacheLabel.tau, CacheLabel.tau] []
    [sampleArticleA] [sampleArticleA] rfl
    (by intro w hw; simp at hw)

/-! ### C5: the field extractor finds first occurrences -/

lemma occursAt_zero_iff (pat l : List α) : occursAt pat l 0 ↔ pat <+: l := by
  simp [occursAt]

lemma occursAt_succ_iff (pat : List α) (a : α) (l : List α) (j : Nat) :
    occursAt pat (a :: l) (j + 1) ↔ occursAt pat l j := by
  simp [occursAt]

lemma occursAt_nil_iff (pat : List α) (i : Nat) : occursAt pat [] i ↔ pat = [] := by
  simp [occursAt]

lemma findSub_eq_none_iff [DecidableEq α] (pat : List α) :
    ∀ l : List α, findSub pat l = none ↔ ∀ j, ¬ occursAt pat l j := by
  intro l
  induction l with
  | nil =>
    by_cases hp : pat = []
    · subst hp
      simp [findSub, occursAt_nil_iff]
    · simp [findSub, hp, occursAt_nil_iff]
  | cons a rest ih =>
    constructor
    · intro hnone j hocc
      by_cases hp : pat <+: a :: rest
      · simp [findSub, hp] at hnone
      · cases j with
        | zero => exact hp ((occursAt_zero_iff pat _).mp hocc)
        | succ j' =>
          have hrest : findSub pat rest = none := by
            simp [findSub, hp] at hnone
            exact hnone
          exact (ih.mp hrest) j' ((occursAt_succ_iff pat a rest j').mp hocc)
    · intro hno
      by_cases hp : pat <+: a :: rest
      · exact absurd ((occursAt_zero_iff pat _).mpr hp) (hno 0)
      · have hrest : findSub pat rest = none :=
          ih.mpr (fun j hocc => hno (j + 1) ((occursAt_succ_iff pat a rest j).mpr hocc))
        simp [findSub, hp, hrest]

lemma findSub_eq_some_iff [DecidableEq α] (pat : List α) :
    ∀ (l : List α) (i : Nat), findSub pat l = some i ↔ firstOccurrenceAt pat l i := by
  intro l
  induction l with
  | nil =>
    intro i
    by_cases hp : pat = []
    · subst hp
      constructor
      · intro h
        simp [findSub] at h
        subst h
        exact ⟨(occursAt_nil_iff [] 0).mpr rfl,
          fun j hj _ => absurd hj (Nat.not_lt_zero j)⟩
      · rintro ⟨hocc, hmin⟩
        have hi : i = 0 := by
          by_contra hne
          exact hmin 0 (by omega) ((occursAt_nil_iff [] 0).mpr rfl)
        subst hi
        simp [findSub]
    · constructor
      · intro h
        simp [findSub, hp] at h
      · rintro ⟨hocc, -⟩
        exact absurd ((occursAt_nil_iff pat i).mp hocc) hp
  | cons a rest ih =>
    intro i
    by_cases hp : pat <+: a :: rest
    · constructor
      · intro h
        simp [findSub, hp] at h
        subst h
        exact ⟨(occursAt_zero_iff pat (a :: rest)).mpr hp,
          fun j hj _ => absurd hj (Nat.not_lt_zero j)⟩
      · rintro ⟨hocc, hmin⟩
        have hi : i = 0 := by
          by_contra hne
          exact hmin 0 (by omega) ((occursAt_zero_iff pat (a :: rest)).mpr hp)
        subst hi
        simp [findSub, hp]
    · constructor
      · intro h
        simp [findSub, hp] at h
        obtain ⟨i', hfs, hi⟩ := h
        subst hi
        obtain ⟨hocc, hmin⟩ := (ih i').mp hfs
        refine ⟨(occursAt_succ_iff pat a rest i').mpr hocc, ?_⟩
        intro j hj
        cases j with
        | zero => exact fun hc => hp ((occursAt_zero_iff pat _).mp hc)
        | succ j' =>
          intro hc
          exact hmin j' (by omega) ((occursAt_succ_iff pat a rest j').mp hc)
      · rintro ⟨hocc, hmin⟩
        cases i with
        | zero => exact absurd ((occursAt_zero_iff pat _).mp hocc) hp
        | succ i' =>
          have hfs : findSub pat rest = some i' :=
            (ih i').mpr ⟨(occursAt_succ_iff pat a rest i').mp hocc,
              fun j hj hc => hmin (j + 1) (by omega)
                ((occursAt_succ_iff pat a rest j).mpr hc)⟩
          simp [findSub, hp, hfs]

lemma firstOccurrenceAt_unique (pat l : List α) {i j : Nat}
    (hi : firstOccurrenceAt pat l i) (hj : firstOccurrenceAt pat l j) : i = j := by
  by_contra hne
  rcases Nat.lt_or_ge i j with h | h
  · exact hj.2 i h hi.1
  · exact hi.2 j (by omega) hj.1

lemma extract_text_eq_err_left (xml tag : List Char)
    (h1 : findSub ('<' :: tag ++ ['>']) xml = none) :
    extract_text xml tag
      = Except.error (AppError.ParsingError (("Tag not found: ").toList ++ tag)) := by
  simp only [extract_text]
  rw [h1]

lemma extract_text_eq_err_right (xml tag : List Char) (s : Nat)
    (h1 : findSub ('<' :: tag ++ ['>']) xml = some s)
    (h2 : findSub ('<' :: '/' :: tag ++ ['>']) xml = none) :
    extract_text xml tag
      = Except.error (AppError.ParsingError (("Tag not found: ").toList ++ tag)) := by
  simp only [extract_text]
  rw [h1, h2]

lemma extract_text_eq_of_finds (xml tag : List Char) (s e : Nat)
    (h1 : findSub ('<' :: tag ++ ['>']) xml = some s)
    (h2 : findSub ('<' :: '/' :: tag ++ ['>']) xml = some e) :
    extract_text xml tag
      = if s + ('<' :: tag ++ ['>']).length < e then
          Except.ok ((xml.drop (s + ('<' :: tag ++ ['>']).length)).take
            (e - (s + ('<' :: tag ++ ['>']).length)))
        else
          Except.error
            (AppError.ParsingError (("Invalid tag positions for ").toList ++ tag)) := by
  simp only [extract_text]
  rw [h1, h2]

/-- C5: `extract_text` succeeds with exactly the substring strictly between
the first occurrence of `<tag>` and the first occurrence of `</tag>`
anywhere in the text, and fails exactly when either marker is absent or
the first closing marker does not lie strictly after the start of the
opening marker's content (src/main.rs:71-86). -/
theorem extract_text_first_occurrence_spec (xml tag : List Char) :
    (∀ v : List Char,
      extract_text xml tag = Except.ok v ↔
        ∃ s e : Nat,
          firstOccurrenceAt ('<' :: tag ++ ['>']) xml s ∧
          firstOccurrenceAt ('<' :: '/' :: tag ++ ['>']) xml e ∧
          s + ('<' :: tag ++ ['>']).length < e ∧
          v = (xml.drop (s + ('<' :: tag ++ ['>']).length)).take
                (e - (s + ('<' :: tag ++ ['>']).length))) ∧
    ((extract_text xml tag).isOk = false ↔
      ((∀ i, ¬ occursAt ('<' :: tag ++ ['>']) xml i) ∨
       (∀ i, ¬ occursAt ('<' :: '/' :: tag ++ ['>']) xml i) ∨
       (∃ s e : Nat,
         firstOccurrenceAt ('<' :: tag ++ ['>']) xml s ∧
         firstOccurrenceAt ('<' :: '/' :: tag ++ ['>']) xml e ∧
         e ≤ s + ('<' :: tag ++ ['>']).length))) := by
  cases h1 : findSub ('<' :: tag ++ ['>']) xml with
  | none =>
    have hno := (findSub_eq_none_iff _ xml).mp h1
    have herr := extract_text_eq_err_left xml tag h1
    constructor
    · intro v
      constructor
      · intro h
        rw [herr] at h
        simp at h
      · rintro ⟨s, e, hs, he, -, -⟩
        exact absurd hs.1 (hno s)
    · constructor
      · intro _
        exact Or.inl hno
      · intro _
        rw [herr]
        rfl
  | some s0 =>
    have hfo1 := (findSub_eq_some_iff _ xml s0).mp h1
    cases h2 : findSub ('<' :: '/' :: tag ++ ['>']) xml with
    | none =>
      have hno := (findSub_eq_none_iff _ xml).mp h2
      have herr := extract_text_eq_err_right xml tag s0 h1 h2
      constructor
      · intro v
        constructor
        · intro h
          rw [herr] at h
          simp at h
        · rintro ⟨s, e, hs, he, -, -⟩
          exact absurd he.1 (hno e)
      · constructor
        · intro _
          exact Or.inr (Or.inl hno)
        · intro _
          rw [herr]
          rfl
    | some e0 =>
      have hfo2 := (findSub_eq_some_iff _ xml e0).mp h2
      have heq := extract_text_eq_of_finds xml tag s0 e0 h1 h2
      by_cases hlt : s0 + ('<' :: tag ++ ['>']).length < e0
      · have hok : extract_text xml tag
            = Except.ok ((xml.drop (s0 + ('<' :: tag ++ ['>']).length)).take
                (e0 - (s0 + ('<' :: tag ++ ['>']).length))) := by
          rw [heq, if_pos hlt]
        constructor
        · intro v
          constructor
          · intro h
            rw [hok] at h
            simp only [Except.ok.injEq] at h
            exact ⟨s0, e0, hfo1, hfo2, hlt, h.symm⟩
          · rintro ⟨s, e, hs, he, hlt', hv⟩
            have hss : s = s0 := firstOccurrenceAt_unique _ _ hs hfo1
            have hee : e = e0 := firstOccurrenceAt_unique _ _ he hfo2
            subst hss
            subst hee
            rw [hok, hv]
        · constructor
          · intro hok2
            rw [hok] at hok2
            simp [Except.isOk, Except.toBool] at hok2
          · rintro (hno | hno | ⟨s, e, hs, he, hle⟩)
            · exact absurd hfo1.1 (hno s0)
            · exact absurd hfo2.1 (hno e0)
            · have hss : s = s0 := firstOccurrenceAt_unique _ _ hs hfo1
              have hee : e = e0 := firstOccurrenceAt_unique _ _ he hfo2
              subst hss
              subst hee
              omega
      · have herr : extract_text xml tag
            = Except.error
                (AppError.ParsingError (("Invalid tag positions for ").toList ++ tag)) := by
          rw [heq, if_neg hlt]
        constructor
        · intro v
          constructor
          · intro h
            rw [herr] at h
            simp at h
          · rintro ⟨s, e, hs, he, hlt', -⟩
            have hss : s = s0 := firstOccurrenceAt_unique _ _ hs hfo1
            have hee : e = e0 := firstOccurrenceAt_unique _ _ he hfo2
            subst hss
            subst hee
            omega
        · constructor
          · intro _
            exact Or.inr (Or.inr ⟨s0, e0, hfo1, hfo2, by omega⟩)
          · intro _
            rw [herr]
            rfl

/-! ### C10: `extract_text` on byte level never panics on valid UTF-8 -/

lemma utf8Valid_of_all_ascii : ∀ (l : List Nat), (∀ b, b ∈ l → b < 0x80) → Utf8Valid l := by
  intro l
  induction l with
  | nil => intro _; exact Utf8Valid.nil
  | cons b rest ih =>
    intro h
    exact Utf8Valid.ascii b rest (h b (List.mem_cons_self b rest))
      (ih (fun c hc => h c (List.mem_cons_of_mem b hc)))

/-- In a byte-class-valid UTF-8 sequence a continuation byte is never at
position 0 and is always preceded by a non-ASCII byte (the earlier bytes
of its multi-byte character). -/
lemma utf8_cont_prev {l : List Nat} (h : Utf8Valid l) :
    ∀ p b, l[p]? = some b → isContByte b →
      ∃ c, p ≠ 0 ∧ l[p - 1]? = some c ∧ 0x80 ≤ c := by
  induction h with
  | nil =>
    intro p b hb _
    simp at hb
  | ascii b0 rest hb0 hrest ih =>
    intro p b hb hcont
    cases p with
    | zero =>
      rw [List.getElem?_cons_zero] at hb
      injection hb with hb
      subst hb
      exact absurd hcont (by simp [isContByte]; omega)
    | succ q =>
      rw [List.getElem?_cons_succ] at hb
      obtain ⟨c, hp0, hc, hge⟩ := ih q b hb hcont
      cases q with
      | zero => exact absurd rfl hp0
      | succ r =>
        refine ⟨c, by omega, ?_, hge⟩
        simpa using hc
  | two b0 c1 rest hlo hhi hc1 hrest ih =>
    intro p b hb hcont
    cases p with
    | zero =>
      rw [List.getElem?_cons_zero] at hb
      injection hb with hb
      subst hb
      exact absurd hcont (by simp [isContByte]; omega)
    | succ q =>
      cases q with
      | zero => exact ⟨b0, by omega, by simp, by omega⟩
      | succ r =>
        rw [List.getElem?_cons_succ, List.getElem?_cons_succ] at hb
        obtain ⟨c, hp0, hc, hge⟩ := ih r b hb hcont
        cases r with
        | zero => exact absurd rfl hp0
        | succ r' =>
          refine ⟨c, by omega, ?_, hge⟩
          simpa using hc
  | three b0 c1 c2 rest hlo hhi hc1 hc2 hrest ih =>
    intro p b hb hcont
    cases p with
    | zero =>
      rw [List.getElem?_cons_zero] at hb
      injection hb with hb
      subst hb
      exact absurd hcont (by simp [isContByte]; omega)
    | succ q =>
      cases q with
      | zero => exact ⟨b0, by omega, by simp, by omega⟩
      | succ r =>
        cases r with
        | zero =>
          have hge1 : 0x80 ≤ c1 ∧ c1 < 0xC0 := hc1
          exact ⟨c1, by omega, by simp, hge1.1⟩
        | succ r' =>
          rw [List.getElem?_cons_succ, List.getElem?_cons_succ,
            List.getElem?_cons_succ] at hb
          obtain ⟨c, hp0, hc, hge⟩ := ih r' b hb hcont
          cases r' with
          | zero => exact absurd rfl hp0
          | succ r'' =>
            refine ⟨c, by omega, ?_, hge⟩
            simpa using hc
  | four b0 c1 c2 c3 rest hlo hhi hc1 hc2 hc3 hrest ih =>
    intro p b hb hcont
    cases p with
    | zero =>
      rw [List.getElem?_cons_zero] at hb
      injection hb with hb
      subst hb
      exact absurd hcont (by simp [isContByte]; omega)
    | succ q =>
      cases q with
      | zero => exact ⟨b0, by omega, by simp, by omega⟩
      | succ r =>
        cases r with
        | zero =>
          have hge1 : 0x80 ≤ c1 ∧ c1 < 0xC0 := hc1
          exact ⟨c1, by omega, by simp, hge1.1⟩
        | succ r' =>
          cases r' with
          | zero =>
            have hge2 : 0x80 ≤ c2 ∧ c2 < 0xC0 := hc2
            exact ⟨c2, by omega, by simp, hge2.1⟩
          | succ r'' =>
            rw [List.getElem?_cons_succ, List.getElem?_cons_succ,
              List.getElem?_cons_succ, List.getElem?_cons_succ] at hb
            obtain ⟨c, hp0, hc, hge⟩ := ih r'' b hb hcont
            cases r'' with
            | zero => exact absurd rfl hp0
            | succ r''' =>
              refine ⟨c, by omega, ?_, hge⟩
              simpa using hc

lemma occursAt_getElem {α : Type u} {pat l : List α} {i k : Nat} {b : α}
    (h : occursAt pat l i) (hk : pat[k]? = some b) : l[i + k]? = some b := by
  have h' : ∃ t, pat ++ t = List.drop i l := h
  obtain ⟨t, ht⟩ := h'
  have hklen : k < pat.length := (List.getElem?_eq_some.mp hk).1
  rw [← List.getElem?_drop, ← ht, List.getElem?_append_left hklen, hk]

lemma occursAt_le_length {α : Type u} {pat l : List α} {i : Nat}
    (h : occursAt pat l i) (hne : pat ≠ []) : i + pat.length ≤ l.length := by
  have h' : ∃ t, pat ++ t = List.drop i l := h
  obtain ⟨t, ht⟩ := h'
  have hlen := congrArg List.length ht
  simp only [List.length_append, List.length_drop] at hlen
  have hpl : 0 < pat.length := List.length_pos.mpr hne
  omega

lemma charBoundary_of_self_ascii {xml : List Nat} {p b : Nat}
    (hb : xml[p]? = some b) (hlt : b < 0x80) : charBoundary xml p = true := by
  unfold charBoundary
  by_cases hp : p = 0
  · rw [if_pos hp]
  · rw [if_neg hp, hb]
    simp [isContByte]
    omega

lemma charBoundary_of_prev_ascii {xml : List Nat} (hv : Utf8Valid xml) {p c : Nat}
    (hp : 1 ≤ p) (hc : xml[p - 1]? = some c) (hlt : c < 0x80) :
    charBoundary xml p = true := by
  unfold charBoundary
  rw [if_neg (by omega : ¬ p = 0)]
  cases hb : xml[p]? with
  | none =>
    have h1 : p - 1 < xml.length := (List.getElem?_eq_some.mp hc).1
    have h2 : xml.length ≤ p := List.getElem?_eq_none_iff.mp hb
    simp
    omega
  | some b =>
    have hnc : ¬ isContByte b := by
      intro hcont
      obtain ⟨c', hp0, hc', hge⟩ := utf8_cont_prev hv p b hb hcont
      rw [hc] at hc'
      injection hc' with hc'
      omega
    simp [hnc]

lemma extract_text_bytes_eq_err_left (xml tag : List Nat)
    (h1 : findSub (0x3C :: tag ++ [0x3E]) xml = none) :
    extract_text_bytes xml tag = some (Except.error ()) := by
  simp only [extract_text_bytes]
  rw [h1]

lemma extract_text_bytes_eq_err_right (xml tag : List Nat) (s : Nat)
    (h1 : findSub (0x3C :: tag ++ [0x3E]) xml = some s)
    (h2 : findSub (0x3C :: 0x2F :: tag ++ [0x3E]) xml = none) :
    extract_text_bytes xml tag = some (Except.error ()) := by
  simp only [extract_text_bytes]
  rw [h1, h2]

lemma extract_text_bytes_eq_of_finds (xml tag : List Nat) (s e : Nat)
    (h1 : findSub (0x3C :: tag ++ [0x3E]) xml = some s)
    (h2 : findSub (0x3C :: 0x2F :: tag ++ [0x3E]) xml = some e) :
    extract_text_bytes xml tag
      = if s + (0x3C :: tag ++ [0x3E]).length < e then
          (sliceBytes xml (s + (0x3C :: tag ++ [0x3E]).length) e).map Except.ok
        else some (Except.error ()) := by
  simp only [extract_text_bytes]
  rw [h1, h2]

/-- C10: `extract_text` is total and never panics on valid UTF-8 input:
the byte indices used to slice (`start + start_tag.len()` and the first
closing-marker position) are always in bounds and on character boundaries,
and the slice is taken only under the `start_pos < end` guard
(src/main.rs:71-86). -/
theorem extract_text_no_panic (xml tag : List Nat)
    (hxml : Utf8Valid xml) (htag : Utf8Valid tag) :
    (extract_text_bytes xml tag).isSome = true := by
  cases h1 : findSub (0x3C :: tag ++ [0x3E]) xml with
  | none =>
    rw [extract_text_bytes_eq_err_left xml tag h1]
    rfl
  | some s0 =>
    cases h2 : findSub (0x3C :: 0x2F :: tag ++ [0x3E]) xml with
    | none =>
      rw [extract_text_bytes_eq_err_right xml tag s0 h1 h2]
      rfl
    | some e0 =>
      rw [extract_text_bytes_eq_of_finds xml tag s0 e0 h1 h2]
      by_cases hlt : s0 + (0x3C :: tag ++ [0x3E]).length < e0
      · rw [if_pos hlt]
        have hocc1 : occursAt (0x3C :: tag ++ [0x3E]) xml s0 :=
          ((findSub_eq_some_iff _ xml s0).mp h1).1
        have hocc2 : occursAt (0x3C :: 0x2F :: tag ++ [0x3E]) xml e0 :=
          ((findSub_eq_some_iff _ xml e0).mp h2).1
        have hLen : (0x3C :: tag ++ [0x3E]).length = tag.length + 2 := by
          simp only [List.length_cons, List.length_append, List.length_nil]
        have hlen1 : s0 + (0x3C :: tag ++ [0x3E]).length ≤ xml.length :=
          occursAt_le_length hocc1 (by simp)
        have hidx : (0x3C :: tag ++ [0x3E]).length - 1 = tag.length + 1 := by omega
        have hlast : (0x3C :: tag ++ [0x3E])[(0x3C :: tag ++ [0x3E]).length - 1]?
            = some 0x3E := by
          rw [hidx]
          simp [List.getElem?_concat_length]
        have hprev0 : xml[s0 + ((0x3C :: tag ++ [0x3E]).length - 1)]? = some 0x3E :=
          occursAt_getElem hocc1 hlast
        have hidx2 : s0 + (0x3C :: tag ++ [0x3E]).length - 1
            = s0 + ((0x3C :: tag ++ [0x3E]).length - 1) := by omega
        have hprev : xml[(s0 + (0x3C :: tag ++ [0x3E]).length) - 1]? = some 0x3E := by
          rw [hidx2]
          exact hprev0
        have hb1 : charBoundary xml (s0 + (0x3C :: tag ++ [0x3E]).length) = true :=
          charBoundary_of_prev_ascii hxml (by omega) hprev (by omega)
        have hb2byte : xml[e0]? = some 0x3C := by
          have h0 : (0x3C :: 0x2F :: tag ++ [0x3E])[0]? = some 0x3C :=
            List.getElem?_cons_zero
          simpa using occursAt_getElem hocc2 h0
        have hb2 : charBoundary xml e0 = true :=
          charBoundary_of_self_ascii hb2byte (by omega)
        have hcond : s0 + (0x3C :: tag ++ [0x3E]).length ≤ e0
            ∧ charBoundary xml (s0 + (0x3C :: tag ++ [0x3E]).length) = true
            ∧ charBoundary xml e0 = true := ⟨Nat.le_of_lt hlt, hb1, hb2⟩
        unfold sliceBytes
        rw [if_pos hcond]
        rfl
      · rw [if_neg hlt]
        rfl

/-- Witness for C10: a concrete ASCII document and tag (the bytes of
`<t>x</t>` and `t`). -/
theorem extract_text_no_panic_witness :
    (extract_text_bytes [0x3C, 0x74, 0x3E, 0x78, 0x3C, 0x2F, 0x74, 0x3E]
      [0x74]).isSome = true :=
  extract_text_no_panic _ _
    (utf8Valid_of_all_ascii _ (by decide))
    (utf8Valid_of_all_ascii _ (by decide))
